import Mathlib

/-!
Verification of the Amazon Kinesis Video Streams consumer library (Python)
against its natural-language specification.

The development shallowly embeds the relevant parts of the source:

* `ebmlite/decoding.py` — variable-length integer and primitive decoders
  (`decodeIntLength`, `decodeIDLength`, `readElementID`, `readElementSize`,
  `readString`);
* `ebmlite/encoding.py` — `getLength`, `encodeUInt`, `encodeSize`;
* `ebmlite/core.py` — element parsing (`MasterElement.parseElement`), the
  unknown-size master scan (`MasterElement.size` / `_isValidChild`), element
  equality (`Element.__eq__` and subclasses), `VoidElement`,
  `Schema.addElement`, and `Document` root iteration;
* `kinesis_video_streams_parser.py` — the fragment segmenter run loop
  (`KvsConsumerLibrary.run`);
* `kinesis_video_fragment_processor.py` — `get_fragment_tags` and
  `get_audio_track_number_from_simple_block`.

Bytes are modelled as `Nat` (values 0..255), byte strings as `List Nat`,
streams as a list plus a cursor, Python dictionaries as association lists
with Python's insertion semantics.  Fallible Python code is modelled with
`Option` / explicit error constructors.  Recursion that is unbounded in
Python (parsing scans) takes an explicit fuel argument; the fuel chosen by
the top-level drivers (`buffer length + 1`) is always sufficient because
every parsed element consumes at least two bytes.
-/

namespace KvsVerify

/-! ### Byte-level primitives shared by decoder and encoder models -/

/-- Bytes `buf[pos : pos+n]` from a seekable source, as Python
`stream.seek(pos); stream.read(n)` on a `BytesIO`: reads at most `n`
bytes, fewer (possibly none) at end of source. -/
def bytesAt (buf : List Nat) (pos n : Nat) : List Nat :=
  (buf.drop pos).take n

/-- Big-endian value of a byte list (`struct.unpack` of the padded buffer). -/
def beVal (bs : List Nat) : Nat :=
  bs.foldl (fun a b => a * 256 + b) 0

/-- `bytes.rjust(n, b'\x00')`: left-pad a byte string with zeros to width
`n` (no-op when already at least that wide). -/
def leftPad (n : Nat) (bs : List Nat) : List Nat :=
  List.replicate (n - bs.length) 0 ++ bs

/-- `n`-byte big-endian encoding of `v % 256^n` (the byte string produced
by `struct.pack` for values in range). -/
def toBytesBE (v : Nat) : Nat → List Nat
  | 0 => []
  | n + 1 => (v / 256 ^ n % 256) :: toBytesBE v n

/-- `decodeIntLength` from `ebmlite/decoding.py`: extract the VarInt length
from the initial byte together with the byte with the length marker bits
removed. -/
def decodeIntLength (b : Nat) : Nat × Nat :=
  if b ≥ 128 then (1, b &&& 127)
  else if b ≥ 64 then (2, b &&& 63)
  else if b ≥ 32 then (3, b &&& 31)
  else if b ≥ 16 then (4, b &&& 15)
  else if b ≥ 8 then (5, b &&& 7)
  else if b ≥ 4 then (6, b &&& 3)
  else if b ≥ 2 then (7, b &&& 1)
  else (8, 0)

/-- `decodeIDLength` from `ebmlite/decoding.py`: ID length from the initial
byte, which is kept whole (marker bits are part of an ID).  `none` models
the `IOError` raised for a length above 4. -/
def decodeIDLength (b : Nat) : Option Nat :=
  if b ≥ 128 then some 1
  else if b ≥ 64 then some 2
  else if b ≥ 32 then some 3
  else if b ≥ 16 then some 4
  else none

/-- Result of a read on a Python stream: `eof` is the `TypeError` raised by
`ord(b'')` at end of source, `err` any other exception (e.g. the `IOError`
for an invalid ID length), `ok` a successful parse. -/
inductive RRes (α : Type) where
  | eof : RRes α
  | err : RRes α
  | ok : α → RRes α
deriving DecidableEq, Repr

/-- `readElementID` from `ebmlite/decoding.py` over an in-memory source:
returns the element ID (marker bits included) and its encoded length.
Truncated multi-byte IDs are zero-padded on the left by `rjust`, exactly as
in the source. -/
def readIdAt (buf : List Nat) (pos : Nat) : RRes (Nat × Nat) :=
  match bytesAt buf pos 1 with
  | [] => .eof
  | b :: _ =>
    match decodeIDLength b with
    | none => .err
    | some len =>
      if len > 1 then
        .ok (beVal (leftPad 4 (b :: bytesAt buf (pos + 1) (len - 1))), len)
      else
        .ok (b, len)

/-- `readElementSize` from `ebmlite/decoding.py` over an in-memory source:
returns the decoded size (`none` for the all-ones "unknown" size) and the
length of the descriptor. -/
def readSizeAt (buf : List Nat) (pos : Nat) : RRes (Option Nat × Nat) :=
  match bytesAt buf pos 1 with
  | [] => .eof
  | b :: _ =>
    let L := (decodeIntLength b).1
    let s0 := (decodeIntLength b).2
    let size :=
      if L > 1 then beVal (leftPad 8 (s0 :: bytesAt buf (pos + 1) (L - 1)))
      else s0
    if size = 2 ^ (7 * L) - 1 then .ok (none, L) else .ok (some size, L)

/-! ### `ebmlite/encoding.py`: `getLength`, `encodeUInt`, `encodeSize` -/

/-- `getLength` from `ebmlite/encoding.py`: the minimum encoded length of a
size value, by the hard-coded thresholds. -/
def getLength (val : Nat) : Nat :=
  if val ≤ 126 then 1
  else if val ≤ 16382 then 2
  else if val ≤ 2097150 then 3
  else if val ≤ 268435454 then 4
  else if val ≤ 34359738366 then 5
  else if val ≤ 4398046511102 then 6
  else if val ≤ 562949953421310 then 7
  else 8

/-- `LENGTH_PREFIXES` from `ebmlite/encoding.py` (table of the VarInt
length-marker constants, indexed by encoded length). -/
def lengthMarkers : List Nat :=
  [0, 0x80, 0x4000, 0x200000, 0x10000000,
   0x0800000000, 0x040000000000, 0x02000000000000, 0x0100000000000000]

/-- `bytes.lstrip(b'\x00')`. -/
def lstripZeros (bs : List Nat) : List Nat :=
  bs.dropWhile (fun b => b == 0)

/-- `encodeUInt` from `ebmlite/encoding.py` (for `Nat` inputs; the
float-coercion branch does not apply): pack as 8-byte big-endian, strip
leading zero bytes (keeping at least one byte), then right-justify to the
explicit length if one is given.  `none` models the exceptions
(`struct.error` for values out of 64-bit range, `ValueError` when the
minimal encoding exceeds the requested length). -/
def encodeUInt (val : Nat) (len : Option Nat) : Option (List Nat) :=
  if val < 2 ^ 64 then
    let stripped := lstripZeros (toBytesBE val 8)
    let packed := if stripped.isEmpty then [0] else stripped
    match len with
    | none => some packed
    | some L => if packed.length > L then none else some (leftPad L packed)
  else none

/-- `encodeSize` from `ebmlite/encoding.py`: `none` value emits all-ones
bytes; otherwise OR the length marker into the value and encode at the
chosen length.  `none` result models the `ValueError` path. -/
def encodeSize (val : Option Nat) (len : Option Nat) : Option (List Nat) :=
  match val with
  | none => some (List.replicate (len.getD 1) 255)
  | some v =>
    let L := len.getD (getLength v)
    match lengthMarkers.get? L with
    | none => none
    | some marker => encodeUInt (v ||| marker) (some L)

/-! ### `readString` (`ebmlite/decoding.py`) — claim C7 -/

/-- U+FFFD, the Unicode replacement character inserted by Python's
`errors='replace'` handler when decoding. -/
def replacementChar : Char := Char.ofNat 0xFFFD

/-- `readString` from `ebmlite/decoding.py`: read `size` bytes, truncate at
the first NUL (`partition(b'\x00')[0]`), then try a strict ASCII decode; on
`UnicodeDecodeError` warn (second component `true`) and decode again with
`errors='replace'`, which turns each byte ≥ 0x80 into U+FFFD. -/
def readString (data : List Nat) (size : Nat) : List Char × Bool :=
  if size = 0 then ([], false)
  else if ((data.take size).takeWhile (fun b => b ≠ 0)).all (fun b => b < 128) then
    (((data.take size).takeWhile (fun b => b ≠ 0)).map Char.ofNat, false)
  else
    (((data.take size).takeWhile (fun b => b ≠ 0)).map
       (fun b => if b < 128 then Char.ofNat b else replacementChar), true)

/-- Modelled from the amended claim's words: read `size` bytes, cut at the
first NUL, and map every byte below 0x80 to its ASCII character and every
other byte to U+FFFD, warning exactly when an invalid byte occurred.  Used
to compare `readString` against the corrected specification sentence. -/
def readStringSpecFFFD (data : List Nat) (size : Nat) : List Char × Bool :=
  if size = 0 then ([], false)
  else
    (((data.take size).takeWhile (fun b => b ≠ 0)).map
       (fun b => if b < 128 then Char.ofNat b else replacementChar),
     !((data.take size).takeWhile (fun b => b ≠ 0)).all (fun b => b < 128))

/-! ### `get_audio_track_number_from_simple_block` — claim C10 -/

/-- Outcome of `get_audio_track_number_from_simple_block`
(`kinesis_video_fragment_processor.py`): a returned track number, the
`None` returned for a non-SimpleBlock element, the `UnboundLocalError`
raised at `return track_nr` when the VINT length is not 1, or the
`TypeError` from `ord(b'')` when the payload is empty. -/
inductive TrackRes where
  | retSome : Nat → TrackRes
  | retNone : TrackRes
  | unboundLocal : TrackRes
  | ordTypeError : TrackRes
deriving DecidableEq, Repr

/-- `get_audio_track_number_from_simple_block` from
`kinesis_video_fragment_processor.py`, over the element's name and the
bytes of its payload (the source seeks to `payloadOffset` and reads one
byte).  `track_nr` is assigned only in the `length == 1` branch; otherwise
the `return track_nr` statement raises `UnboundLocalError`. -/
def getAudioTrackNumber (name : String) (payload : List Nat) : TrackRes :=
  if name = "SimpleBlock" then
    match payload with
    | [] => .ordTypeError
    | b :: _ =>
      if (decodeIntLength b).1 = 1 then .retSome (b &&& 127)
      else .unboundLocal
  else .retNone

/-! ### Element equality (`ebmlite/core.py`) — claim C6 -/

/-- Schema-defined element kinds (the eight generated base classes plus
`Void`; `Unknown` is excluded as the claim does). -/
inductive EKind where
  | kInt | kUint | kFloat | kAscii | kUtf8 | kDate | kBinary | kVoid | kMaster
deriving DecidableEq, Repr

/-- Python `dtype` class attribute of each element kind (`int`, `float`,
`str`, `bytearray`, `datetime`, `list`), encoded as a tag.  Signed and
unsigned integers share `int`; ASCII and UTF-8 strings share `str`;
`Void` inherits `bytearray` from `BinaryElement`. -/
def dtypeOf : EKind → Nat
  | .kInt => 0
  | .kUint => 0
  | .kFloat => 1
  | .kAscii => 2
  | .kUtf8 => 2
  | .kDate => 3
  | .kBinary => 4
  | .kVoid => 4
  | .kMaster => 5

/-- A parsed element as far as `__eq__` observes it: kind (selecting the
dispatched `__eq__` and providing `dtype`), EBML ID, offset, payload size,
owning schema (abstracted to a tag; `Schema.__eq__` compares
`elementInfo`), and decoded payload value (abstracted to a tag; `__eq__`
only ever compares values for equality). -/
structure ElemR where
  kind : EKind
  eid : Nat
  offset : Nat
  size : Option Nat
  schema : Nat
  value : Nat
deriving DecidableEq, Repr

/-- `Element.__eq__` from `ebmlite/core.py`: same `dtype`, `id`, `offset`,
`size`, and `schema`. -/
def baseEq (a b : ElemR) : Bool :=
  dtypeOf a.kind == dtypeOf b.kind && a.eid == b.eid && a.offset == b.offset
    && a.size == b.size && a.schema == b.schema

/-- Does the dispatched `__eq__` additionally compare `.value`?  True for
`IntegerElement`, `UIntegerElement`, `DateElement` (inherits
`IntegerElement.__eq__`), `FloatElement`, `StringElement`, and
`UnicodeElement` (inherits `StringElement.__eq__`); false for
`BinaryElement`, `VoidElement`, and `MasterElement`, which use the base
`Element.__eq__`. -/
def checksValue : EKind → Bool
  | .kInt => true
  | .kUint => true
  | .kFloat => true
  | .kAscii => true
  | .kUtf8 => true
  | .kDate => true
  | .kBinary => false
  | .kVoid => false
  | .kMaster => false

/-- Element equality as dispatched on the left operand's class: the base
attribute comparison, plus `self.value == other.value` for the kinds whose
class overrides `__eq__`. -/
def elemEq (a b : ElemR) : Bool :=
  baseEq a b && (!checksValue a.kind || a.value == b.value)

/-! ### `VoidElement` (`ebmlite/core.py`) — claim C4 -/

/-- A Python file-like stream over bytes: contents, cursor, and a count of
bytes actually read from the source (to observe whether a `read` ever
touches the source). -/
structure PStream where
  data : List Nat
  pos : Nat
  reads : Nat
deriving DecidableEq, Repr

/-- `stream.seek(p)`. -/
def sseek (st : PStream) (p : Nat) : PStream :=
  { st with pos := p }

/-- `stream.read(n)`: up to `n` bytes from the cursor, advancing it and
counting the bytes read. -/
def sread (st : PStream) (n : Nat) : List Nat × PStream :=
  let bs := bytesAt st.data st.pos n
  (bs, { st with pos := st.pos + bs.length, reads := st.reads + bs.length })

/-- `VoidElement.parse` from `ebmlite/core.py`: `return bytearray()` — the
stream is not read and the declared size is ignored. -/
def voidParse (st : PStream) (_size : Nat) : List Nat × PStream :=
  ([], st)

/-- `Element.value` for a freshly parsed `VoidElement` (`_value is None`):
seek to `payloadOffset`, call the type-specific `parse`, and return its
result. -/
def voidValue (st : PStream) (payloadOffset size : Nat) : List Nat × PStream :=
  voidParse (sseek st payloadOffset) size

/-- `BinaryElement.__len__` (inherited by `VoidElement`): the declared
payload size. -/
def voidLen (size : Nat) : Nat := size

/-! ### Element-tree parsing (`ebmlite/core.py`) — claims C1, C2, C5

The schema is abstracted to the three features the parser consults:
whether an ID names a master element, the set of declared child IDs of
each master, and the set of global IDs.  Everything else in a schema
(names, precache flags, value decoding) does not influence element
boundaries or the scans under verification. -/

structure SchemaM where
  isMaster : Nat → Bool
  children : Nat → List Nat
  globals : List Nat

/-- `MasterElement._isValidChild` from `ebmlite/core.py`: `False` whenever
the master type's `children` is empty (`if not cls.children`), otherwise
membership in the declared children or the schema's globals
(`cls._childIds = set(cls.children) | schema.globals`). -/
def validChild (sc : SchemaM) (pid cid : Nat) : Bool :=
  if (sc.children pid).isEmpty then false
  else (sc.children pid).contains cid || sc.globals.contains cid

/-- Modelled from the claim's words ("id is in the master type's declared
children or in the schema's globals"): child validity without the
empty-`children` early-out that the source applies first.  Used to compare
the code's scan against the claimed one. -/
def validChildSpec (sc : SchemaM) (pid cid : Nat) : Bool :=
  (sc.children pid).contains cid || sc.globals.contains cid

/-- The `while True` loop in `MasterElement.size` (`ebmlite/core.py`),
abstracted over the element parser at a fixed stream: starting at `pos`,
parse elements, counting those with valid IDs, and stop at the first
invalid ID (returning its offset) or at end of source (returning the
position where the read failed).  `none` propagates any non-EOF error, and
also models fuel exhaustion (the source loops unboundedly; the fuel used
by the drivers below is always sufficient). -/
def scanLoopP (parse : Nat → RRes (Nat × Nat × Nat)) (valid : Nat → Bool) :
    Nat → Nat → Option (Nat × Nat)
  | 0, _ => none
  | fuel + 1, pos =>
    match parse pos with
    | .eof => some (pos, 0)
    | .err => none
    | .ok (eid, _po, next) =>
      if valid eid then
        match scanLoopP parse valid fuel next with
        | some (e, n) => some (e, n + 1)
        | none => none
      else some (pos, 0)

/-- `MasterElement.parseElement` from `ebmlite/core.py` at a position in an
in-memory stream: read the ID and size VarInts, compute the payload
offset, and return `(id, payloadOffset, next)` where `next =
payloadOffset + size`.  A known size is used directly; the unknown
(all-ones) size of a master element triggers the `MasterElement.size`
child scan, and of a non-master element raises (`payloadOffset + None`),
modelled by `.err`.  `fuel` bounds the recursion through nested
unknown-size masters. -/
def parseElemAt (sc : SchemaM) (buf : List Nat) :
    Nat → Nat → RRes (Nat × Nat × Nat)
  | 0, _ => .err
  | fuel + 1, pos =>
    match readIdAt buf pos with
    | .eof => .eof
    | .err => .err
    | .ok (eid, idlen) =>
      match readSizeAt buf (pos + idlen) with
      | .eof => .eof
      | .err => .err
      | .ok (osize, slen) =>
        let po := pos + idlen + slen
        match osize with
        | some s => .ok (eid, po, po + s)
        | none =>
          if sc.isMaster eid then
            match scanLoopP (parseElemAt sc buf fuel) (validChild sc eid) fuel po with
            | some ep => .ok (eid, po, po + (ep.1 - po))
            | none => .err
          else .err

/-- `MasterElement.size` (with `MasterElement.__len__`'s `_length`) for an
unknown-size master of type `mid` whose payload starts at `po`: the pair
`(end − payloadOffset, number of valid children)`. -/
def masterSizeOf (sc : SchemaM) (buf : List Nat) (mid po fuel : Nat) :
    Option (Nat × Nat) :=
  (scanLoopP (parseElemAt sc buf fuel) (validChild sc mid) fuel po).map
    (fun ep => (ep.1 - po, ep.2))

/-- Modelled from the claim's words: the same scan with claim-side child
validity (`validChildSpec`), for comparison with `masterSizeOf`. -/
def masterSizeSpecOf (sc : SchemaM) (buf : List Nat) (mid po fuel : Nat) :
    Option (Nat × Nat) :=
  (scanLoopP (parseElemAt sc buf fuel) (validChildSpec sc mid) fuel po).map
    (fun ep => (ep.1 - po, ep.2))

/-- `Document.__iter__` from `ebmlite/core.py` (as used by
`Schema.loads`, which keeps `payloadOffset` at the start of the buffer):
walk root elements from `pos`, yielding `(offset, id)` pairs, stopping
cleanly at end of source and propagating (`none`) any other parse error. -/
def docRootsAux (parse : Nat → RRes (Nat × Nat × Nat)) :
    Nat → Nat → Option (List (Nat × Nat))
  | 0, _ => none
  | fuel + 1, pos =>
    match parse pos with
    | .eof => some []
    | .err => none
    | .ok (eid, _po, next) =>
      (docRootsAux parse fuel next).map (fun l => (pos, eid) :: l)

/-- Root elements `(offset, id)` of `schema.loads(buf)`.  The fuel
`buf.length + 1` always suffices: every element advances the position by
at least two bytes. -/
def docRoots (sc : SchemaM) (buf : List Nat) : Option (List (Nat × Nat)) :=
  docRootsAux (parseElemAt sc buf (buf.length + 1)) (buf.length + 1) 0

/-- `KvsConsumerLibrary._get_ebml_header_elements`
(`kinesis_video_streams_parser.py`): the offsets of root elements whose ID
is `0x1A45DFA3` (`EBML`), in document order. -/
def ebmlHeaderOffsets (sc : SchemaM) (buf : List Nat) : Option (List Nat) :=
  (docRoots sc buf).map
    (fun roots => (roots.filter (fun r => r.2 == 0x1A45DFA3)).map (fun r => r.1))

/-- The segmenter's per-stream state: the accumulating `chunk_buffer` and
the fragments delivered so far to `on_fragment_arrived`. -/
structure SegState where
  buffer : List Nat
  delivered : List (List Nat)
deriving DecidableEq, Repr

/-- One iteration of the `for chunk in ...` body of
`KvsConsumerLibrary.run` after the stop-flag check: append the chunk,
parse the buffer, and if more than one EBML header element is present,
deliver `chunk_buffer[first:second]` and keep `chunk_buffer[second:]`.
`none` models an exception escaping to the `except` clause.  (The
re-parse `schema.loads(fragment_bytes)` cannot raise: `Document.__init__`
swallows first-element errors.) -/
def stepChunk (sc : SchemaM) (st : SegState) (chunk : List Nat) :
    Option SegState :=
  let buf := st.buffer ++ chunk
  match ebmlHeaderOffsets sc buf with
  | none => none
  | some hdrs =>
    match hdrs with
    | f0 :: f1 :: _ =>
      some ⟨buf.drop f1, st.delivered ++ [(buf.drop f0).take (f1 - f0)]⟩
    | _ => some ⟨buf, st.delivered⟩

/-- Observable outcome of `KvsConsumerLibrary.run`: fragments delivered,
whether `on_read_stream_complete` ran, whether `on_read_stream_exception`
ran, and how many chunks were pulled from the upstream iterator. -/
structure SegResult where
  delivered : List (List Nat)
  completionCalled : Bool
  errorCalled : Bool
  pulled : Nat
deriving DecidableEq, Repr

/-- The `for chunk in kvs_streaming_buffer` loop of
`KvsConsumerLibrary.run`.  `flag i` is the value of `self._stop_get_media`
observed at the check that follows pulling chunk `i`; Python's `for`
statement pulls the chunk *before* the body checks the flag, so a
flag-triggered `break` still consumes one chunk.  After the loop — whether
by exhaustion or by `break` — `on_read_stream_complete` is called; an
exception instead reaches `on_read_stream_exception`. -/
def runAux (sc : SchemaM) (flag : Nat → Bool) :
    List (List Nat) → Nat → SegState → SegResult
  | [], i, st => ⟨st.delivered, true, false, i⟩
  | c :: cs, i, st =>
    if flag i then ⟨st.delivered, true, false, i + 1⟩
    else
      match stepChunk sc st c with
      | none => ⟨st.delivered, false, true, i + 1⟩
      | some st' => runAux sc flag cs (i + 1) st'

/-- `KvsConsumerLibrary.run` over a chunk sequence. -/
def runSegmenter (sc : SchemaM) (chunks : List (List Nat))
    (flag : Nat → Bool) : SegResult :=
  runAux sc flag chunks 0 ⟨[], []⟩

/-- The chain of parse outcomes that the unknown-size scan walks: from
`pos`, `n` elements with valid IDs are parsed, and then either end of
source is reached or an element with an invalid ID starts, at offset
`stop`.  This is the declarative reading of the claim's "counts each
element … stops at the first invalid child or at end-of-source". -/
inductive ScanChain (parse : Nat → RRes (Nat × Nat × Nat))
    (valid : Nat → Bool) : Nat → Nat → Nat → Prop where
  | stopEof : ∀ pos, parse pos = .eof → ScanChain parse valid pos pos 0
  | stopInvalid : ∀ pos eid po next, parse pos = .ok (eid, po, next) →
      valid eid = false → ScanChain parse valid pos pos 0
  | step : ∀ pos eid po next stop n, parse pos = .ok (eid, po, next) →
      valid eid = true → ScanChain parse valid next stop n →
      ScanChain parse valid pos stop (n + 1)

/-! ### `Schema.addElement` (`ebmlite/core.py`) — claim C8 -/

/-- The generated element base classes that `addElement` receives
(`BASE_CLASSES` / `ELEMENT_TYPES`). -/
inductive BKind where
  | integer | uinteger | float | string | unicode | date | binary | master
deriving DecidableEq, Repr

/-- `issubclass(old_generated_class, new_base_class)`: a schema-generated
class subclasses exactly its own base and that base's ancestors among the
eight (`UIntegerElement < IntegerElement`, `DateElement < IntegerElement`,
`UnicodeElement < StringElement`). -/
def kindSub (old new : BKind) : Bool :=
  old == new
    || (old == .uinteger && new == .integer)
    || (old == .date && new == .integer)
    || (old == .unicode && new == .string)

/-- Python dict of raw schema attributes, as an insertion-ordered
association list with unique keys (attribute names and values abstracted
to numeric atoms). -/
abbrev AttrD := List (Nat × Nat)

/-- First-match lookup. -/
def lookupA : AttrD → Nat → Option Nat
  | [], _ => none
  | (k', v') :: rest, k => if k' = k then some v' else lookupA rest k

/-- `d[k] = v` on a Python dict: replace in place if the key exists,
otherwise append. -/
def insertA : AttrD → Nat → Nat → AttrD
  | [], k, v => [(k, v)]
  | (k', v') :: rest, k, v =>
    if k' = k then (k, v) :: rest else (k', v') :: insertA rest k v

/-- `old.copy(); old.update(new)`. -/
def dictUpdateA (old new : AttrD) : AttrD :=
  new.foldl (fun acc kv => insertA acc kv.1 kv.2) old

/-- One schema element declaration as `addElement` observes it: ID, name
(abstracted to a numeric atom), and base kind. -/
structure SDecl where
  eid : Nat
  ename : Nat
  kind : BKind
deriving DecidableEq, Repr

/-- The slice of `Schema` state that `addElement` reads and writes:
declared element classes (keyed by both ID and name), `elementInfo`, and
the schema's root `children` IDs (the `parent.children[eid] = eclass`
write for a schema parent). -/
structure SchemaS where
  decls : List SDecl
  einfo : List (Nat × AttrD)
  rootChildren : List Nat
deriving DecidableEq, Repr

/-- `self.elements[i]`. -/
def findById (sch : SchemaS) (i : Nat) : Option SDecl :=
  sch.decls.find? (fun d => d.eid == i)

/-- `self.elementsByName[n]`. -/
def findByName (sch : SchemaS) (n : Nat) : Option SDecl :=
  sch.decls.find? (fun d => d.ename == n)

/-- `self.elementInfo[i]`. -/
def lookupInfo (sch : SchemaS) (i : Nat) : Option AttrD :=
  (sch.einfo.find? (fun p => p.1 == i)).map (fun p => p.2)

/-- Insert into a keyed Python dict whose values we do not track further
(used for `parent.children[eid] = eclass`). -/
def addChildId (l : List Nat) (i : Nat) : List Nat :=
  if l.contains i then l else l ++ [i]

/-- Outcome of `Schema.addElement`: success with the updated schema and
the element class returned, `TypeError` (incompatible kind or conflicting
attributes), `KeyError` (the `self[ename or eid]` lookup missing), or
`ValueError` (new declaration missing its ID or name). -/
inductive AddRes where
  | ok : SchemaS → SDecl → AddRes
  | errType : AddRes
  | errKey : AddRes
  | errValue : AddRes
deriving DecidableEq, Repr

/-- `Schema.addElement` from `ebmlite/core.py`, with the schema itself as
parent.  In the duplicate branch the prior declaration is found via
`self[ename or eid]`, the kind compatibility check is
`issubclass(self.elements[eid], baseClass)`, and the attribute check
compares `elementInfo[eid]` updated with the new attributes against the
original.  In the new-declaration branch, ID and name are required (the
string-shape validation of names, and the extraction of
mandatory/multiple/precache/length/global into class fields, are not
observable through this model's claims and are elided — names are numeric
atoms here). -/
def addElement (sch : SchemaS) (eid ename : Option Nat) (baseK : BKind)
    (attribs : AttrD) : AddRes :=
  let dupl :=
    (match eid with | some i => (findById sch i).isSome | none => false)
    || (match ename with | some n => (findByName sch n).isSome | none => false)
  if dupl then
    match (match ename with
           | some n => findByName sch n
           | none => match eid with
                     | some i => findById sch i
                     | none => none) with
    | none => .errKey
    | some old =>
      if !kindSub old.kind baseK then .errType
      else
        let oldatts := (lookupInfo sch old.eid).getD []
        if dictUpdateA oldatts attribs = oldatts then
          .ok { sch with rootChildren := addChildId sch.rootChildren old.eid } old
        else .errType
  else
    match eid, ename with
    | none, _ => .errValue
    | some _, none => .errValue
    | some i, some n =>
      let d : SDecl := ⟨i, n, baseK⟩
      .ok { decls := sch.decls ++ [d],
            einfo := sch.einfo ++ [(i, attribs)],
            rootChildren := addChildId sch.rootChildren i } d

/-! ### `get_fragment_tags` (`kinesis_video_fragment_processor.py`) — claim C9 -/

/-- A node of a parsed fragment DOM as the tag extractor observes it:
EBML ID, decoded payload value (bytes of the string for `TagName`, the
stored value for `TagString`/`TagBinary`), and child elements. -/
inductive MkvEl where
  | node : Nat → List Nat → List MkvEl → MkvEl

/-- Element ID. -/
def elId : MkvEl → Nat
  | .node i _ _ => i

/-- Decoded payload value. -/
def elValue : MkvEl → List Nat
  | .node _ v _ => v

/-- Child elements (iteration of a master element). -/
def elChildren : MkvEl → List MkvEl
  | .node _ _ c => c

/-- The first root element with the `Segment` ID `0x18538067` (the loop
with `break` in `get_fragment_tags`). -/
def segmentOf (roots : List MkvEl) : Option MkvEl :=
  roots.find? (fun e => elId e == 0x18538067)

/-- The nested loops of `get_fragment_tags` collecting `SimpleTag`
elements: `Segment → Tags (0x1254C367) → Tag (0x7373) → SimpleTag
(0x67C8)`, in document order. -/
def collectSimpleTags (seg : MkvEl) : List MkvEl :=
  (elChildren seg).flatMap (fun e =>
    if elId e == 0x1254C367 then
      (elChildren e).flatMap (fun t =>
        if elId t == 0x7373 then
          (elChildren t).filter (fun s => elId s == 0x67C8)
        else [])
    else [])

/-- The per-`SimpleTag` loop: `tag_name` is overwritten by each `TagName`
(0x45A3) child and `tag_value` by each `TagString` (0x4487) or `TagBinary`
(0x4485) child, so the last occurrences win; either may remain unset. -/
def tagNameValue (st : MkvEl) : Option (List Nat) × Option (List Nat) :=
  (elChildren st).foldl
    (fun acc e =>
      if elId e == 0x45A3 then (some (elValue e), acc.2)
      else if elId e == 0x4487 || elId e == 0x4485 then (acc.1, some (elValue e))
      else acc)
    (none, none)

/-- The tags dictionary: keys are `TagName` byte strings, values the
(possibly absent) tag value, with Python dict insertion semantics. -/
abbrev TagDict := List (List Nat × Option (List Nat))

/-- `simple_tags_dict[tag_name] = tag_value`. -/
def insertTag : TagDict → List Nat → Option (List Nat) → TagDict
  | [], k, v => [(k, v)]
  | (k', v') :: rest, k, v =>
    if k' = k then (k, v) :: rest else (k', v') :: insertTag rest k v

/-- The dict-building fold of `get_fragment_tags`: a `SimpleTag`
contributes an entry exactly when its `tag_name` is truthy (present and
non-empty). -/
def buildTagDict (d : TagDict) (sts : List MkvEl) : TagDict :=
  sts.foldl
    (fun acc st =>
      match tagNameValue st with
      | (some (c :: cs), v) => insertTag acc (c :: cs) v
      | _ => acc)
    d

/-- The non-empty `TagName` of a `SimpleTag`, when it has one. -/
def nameOf (st : MkvEl) : Option (List Nat) :=
  match tagNameValue st with
  | (some (c :: cs), _) => some (c :: cs)
  | _ => none

/-- `get_fragment_tags` from `kinesis_video_fragment_processor.py` over a
parsed DOM: `none` models the `KeyError` raised when either no `Segment`
root exists or the first one is falsy (a master element with zero
children has `len() == 0`). -/
def getFragmentTags (roots : List MkvEl) : Option TagDict :=
  match segmentOf roots with
  | none => none
  | some seg =>
    if (elChildren seg).length = 0 then none
    else some (buildTagDict [] (collectSimpleTags seg))

/-- Keys of a tags dictionary, in insertion order. -/
def tagKeys (d : TagDict) : List (List Nat) :=
  d.map (fun p => p.1)

/-- First-occurrence de-duplication of a key sequence against already-seen
keys. -/
def dedupAcc (seen : List (List Nat)) : List (List Nat) → List (List Nat)
  | [] => []
  | x :: xs =>
    if x ∈ seen then dedupAcc seen xs
    else x :: dedupAcc (seen ++ [x]) xs

/-! ### Concrete fixtures used by witnesses and counterexamples -/

/-- Modelled from the spec: the Matroska schema features the parser
consults.  The schema XML (`matroska.xml` under `ebmlite/schemata`) is not
among the sources; master IDs and containment are taken from the spec's
§4.G and glossary (EBML `0x1A45DFA3`; Segment `0x18538067` containing Tags
`0x1254C367` and Cluster `0x1F43B675`; Tag `0x7373`; SimpleTag `0x67C8`
with TagName `0x45A3`, TagString `0x4487`, TagBinary `0x4485`; SimpleBlock
`0xA3`).  Children of the `EBML` header and the schema's global IDs are
not enumerated by the spec and are left empty; no theorem below depends on
them. -/
def matroskaM : SchemaM where
  isMaster i :=
    [0x1A45DFA3, 0x18538067, 0x1254C367, 0x7373, 0x67C8, 0x1F43B675].contains i
  children i :=
    if i = 0x18538067 then [0x1254C367, 0x1F43B675]
    else if i = 0x1254C367 then [0x7373]
    else if i = 0x7373 then [0x67C8]
    else if i = 0x67C8 then [0x45A3, 0x4487, 0x4485]
    else if i = 0x1F43B675 then [0xA3]
    else []
  globals := []

/-- A minimal complete MKV fragment: a single empty `EBML` master element
(ID `0x1A45DFA3`, size 0). -/
def ebmlFrag : List Nat := [0x1A, 0x45, 0xDF, 0xA3, 0x80]

/-- Schema for the C2 counterexample: ID 100 is a master element that
declares no children, and `0xEC` is a global ID. -/
def scC2 : SchemaM := ⟨fun i => i == 100, fun _ => [], [0xEC]⟩

/-- Schema for the C2 witness: ID 2 is a master element whose only
declared child is `0x81`. -/
def scW : SchemaM := ⟨fun i => i == 2, fun i => if i = 2 then [0x81] else [], []⟩

/-- Payload for the C2 witness: two valid children (`0x81`, empty) followed
by an element with the undeclared ID `0xA2`. -/
def bufW : List Nat := [0x81, 0x80, 0x81, 0x80, 0xA2, 0x80]

/-- A `SimpleTag` with `TagName` bytes `[65]` and `TagString` value `v`. -/
def simpleTag9 (v : Nat) : MkvEl :=
  .node 0x67C8 [] [.node 0x45A3 [65] [], .node 0x4487 [v] []]

/-- A `Segment` whose `Tags/Tag` holds two `SimpleTag`s with the same
`TagName`. -/
def seg9 : MkvEl :=
  .node 0x18538067 []
    [.node 0x1254C367 [] [.node 0x7373 [] [simpleTag9 1, simpleTag9 2]]]

/-- Fragment DOM roots for the C9 counterexample and witness. -/
def roots9 : List MkvEl := [seg9]

/-! ## Theorems -/

/-! ### C7 — `readString` -/

/-- Claim C7 (corrected): for every payload, the ASCII reader reads `size`
bytes, truncates at the first NUL, decodes every byte below 0x80 as its
ASCII character and replaces every invalid byte with U+FFFD (not `'?'`),
warns exactly when an invalid byte occurred, never fails, and returns the
empty string for `size = 0`. -/
theorem C7_readString_replacement :
    ∀ data size, readString data size = readStringSpecFFFD data size := by
  intro data size
  unfold readString readStringSpecFFFD
  by_cases h0 : size = 0
  · simp [h0]
  · rw [if_neg h0, if_neg h0]
    by_cases hall :
        ((data.take size).takeWhile (fun b => b ≠ 0)).all (fun b => b < 128) = true
    · rw [if_pos hall, hall]
      have hmap : ((data.take size).takeWhile (fun b => b ≠ 0)).map Char.ofNat =
          ((data.take size).takeWhile (fun b => b ≠ 0)).map
            (fun b => if b < 128 then Char.ofNat b else replacementChar) := by
        apply List.map_congr_left
        intro b hb
        have hlt : b < 128 := by simpa using List.all_eq_true.mp hall b hb
        simp [hlt]
      rw [hmap]
      rfl
    · have hall' :
          ((data.take size).takeWhile (fun b => b ≠ 0)).all (fun b => b < 128) = false := by
        cases h : ((data.take size).takeWhile (fun b => b ≠ 0)).all (fun b => b < 128)
        · rfl
        · exact absurd h hall
      rw [if_neg hall, hall']
      rfl

/-- Counterexample to claim C7 as stated: on payload `[65, 200]` the
invalid byte 200 becomes U+FFFD, not the claimed `'?'` (0x3F). -/
theorem C7_counterexample :
    readString [65, 200] 2 = ([Char.ofNat 65, replacementChar], true) ∧
    (readString [65, 200] 2).1 ≠ [Char.ofNat 65, Char.ofNat 63] := by
  decide

/-! ### C10 — `get_audio_track_number_from_simple_block` -/

/-- Claim C10: on a SimpleBlock whose first payload byte is below 0x80 the
track-number VINT is longer than one octet, `track_nr` is never assigned
and the `return` statement raises `UnboundLocalError`; only when the high
bit is set does the function return the byte masked with 0x7F. -/
theorem C10_track_number (b : Nat) (rest : List Nat) (hb : b < 256) :
    (b < 128 →
      getAudioTrackNumber "SimpleBlock" (b :: rest) = .unboundLocal) ∧
    (128 ≤ b →
      getAudioTrackNumber "SimpleBlock" (b :: rest) = .retSome (b &&& 127)) := by
  constructor
  · intro h
    have hlen : (decodeIntLength b).1 ≠ 1 := by
      unfold decodeIntLength
      split_ifs <;> omega
    simp [getAudioTrackNumber, hlen]
  · intro h
    have hlen : (decodeIntLength b).1 = 1 := by
      unfold decodeIntLength
      split_ifs <;> omega
    simp [getAudioTrackNumber, hlen]

/-- Witness for C10 at concrete inputs 0x45 (below 0x80) and 0x81. -/
theorem C10_track_number_witness :
    (69 : Nat) < 256 ∧ (69 : Nat) < 128 ∧
      getAudioTrackNumber "SimpleBlock" [69] = .unboundLocal ∧
    (129 : Nat) < 256 ∧ (128 : Nat) ≤ 129 ∧
      getAudioTrackNumber "SimpleBlock" [129] = .retSome (129 &&& 127) :=
  ⟨by decide, by decide, (C10_track_number 69 [] (by decide)).1 (by decide),
   by decide, by decide, (C10_track_number 129 [] (by decide)).2 (by decide)⟩

/-! ### C6 — element equality -/

/-- Claim C6 (amended): two schema-defined elements compare equal iff they
agree on `dtype` (kind up to the INT/UINT and ASCII/UTF8 identifications),
id, offset, size, and schema, and — additionally, for the integer,
unsigned-integer, date, float, ASCII and UTF-8 kinds — on payload value;
the five attributes alone suffice only for binary, void, and master
elements. -/
theorem C6_element_equality (a b : ElemR) :
    elemEq a b = true ↔
      (dtypeOf a.kind = dtypeOf b.kind ∧ a.eid = b.eid ∧ a.offset = b.offset ∧
       a.size = b.size ∧ a.schema = b.schema ∧
       (checksValue a.kind = true → a.value = b.value)) := by
  cases hc : checksValue a.kind <;>
    simp [elemEq, baseEq, hc, and_assoc]

/-- Witness for C6 on concrete binary elements: the five attributes alone
decide equality for a kind that does not override `__eq__`. -/
theorem C6_element_equality_witness :
    elemEq ⟨.kBinary, 2, 1, some 3, 0, 9⟩ ⟨.kBinary, 2, 1, some 3, 0, 11⟩ = true :=
  (C6_element_equality ⟨.kBinary, 2, 1, some 3, 0, 9⟩ ⟨.kBinary, 2, 1, some 3, 0, 11⟩).mpr
    ⟨rfl, rfl, rfl, rfl, rfl, fun hc => absurd hc (by decide)⟩

/-- Counterexample to claim C6 as stated: two integer elements agreeing on
kind, id, offset, size and schema (so `Element.__eq__` holds) but with
different decoded values are unequal, because `IntegerElement.__eq__`
additionally compares values. -/
theorem C6_counterexample :
    baseEq ⟨.kInt, 1, 0, some 4, 0, 7⟩ ⟨.kInt, 1, 0, some 4, 0, 8⟩ = true ∧
    elemEq ⟨.kInt, 1, 0, some 4, 0, 7⟩ ⟨.kInt, 1, 0, some 4, 0, 8⟩ = false := by
  decide

/-! ### C4 — `VoidElement` -/

/-- Claim C4 (code bug): for a Void element of declared size 3, `len` is 3
and `.value` touches no byte of the source — but the value is the *empty*
byte string, not the 3 bytes of 0xFF promised by the claim and by the
class's own docstring (`VoidElement.parse` returns `bytearray()`). -/
theorem C4_void_value :
    voidLen 3 = 3 ∧
    voidValue ⟨[1, 2, 3, 4, 5, 6], 0, 0⟩ 2 3 = ([], ⟨[1, 2, 3, 4, 5, 6], 2, 0⟩) ∧
    (voidValue ⟨[1, 2, 3, 4, 5, 6], 0, 0⟩ 2 3).2.reads = 0 ∧
    (voidValue ⟨[1, 2, 3, 4, 5, 6], 0, 0⟩ 2 3).1 ≠ List.replicate 3 255 := by
  decide

/-! ### C5 — cancellation -/

/-- Claim C5 (amended): if the stop flag is set from the check after chunk
`i + k` onward, the run processes exactly the first `k` chunks (delivering
whatever those chunks produce), pulls one further chunk from the iterator
before observing the flag and discarding it, and then *does* call the
stream-completion sink — unless an exception occurred among the first `k`
chunks, in which case the error sink runs instead. -/
theorem C5_cancellation (sc : SchemaM) (cs : List (List Nat)) :
    ∀ (k i : Nat) (st : SegState),
      runAux sc (fun j => decide (i + k ≤ j)) cs i st =
        ⟨(runAux sc (fun _ => false) (cs.take k) i st).delivered,
         (runAux sc (fun _ => false) (cs.take k) i st).completionCalled,
         (runAux sc (fun _ => false) (cs.take k) i st).errorCalled,
         if (runAux sc (fun _ => false) (cs.take k) i st).errorCalled then
           (runAux sc (fun _ => false) (cs.take k) i st).pulled
         else min (i + k + 1) (i + cs.length)⟩ := by
  induction cs with
  | nil =>
    intro k i st
    simp only [List.take_nil, runAux, List.length_nil]
    simp only [Bool.false_eq_true, if_false]
    have : min (i + k + 1) (i + 0) = i := by omega
    rw [this]
  | cons c cs ih =>
    intro k i st
    cases k with
    | zero =>
      have hflag : decide (i + 0 ≤ i) = true := by simp
      simp only [List.take_zero, runAux, hflag, if_true, List.length_cons]
      simp only [Bool.false_eq_true, if_false]
      have : min (i + 0 + 1) (i + (cs.length + 1)) = i + 1 := by omega
      rw [this]
    | succ k =>
      have hflag : decide (i + (k + 1) ≤ i) = false := by simp
      have hfun : (fun j => decide (i + (k + 1) ≤ j)) =
          (fun j => decide ((i + 1) + k ≤ j)) := by
        have h' : i + (k + 1) = (i + 1) + k := by omega
        rw [h']
      simp only [runAux, hflag, Bool.false_eq_true, if_false, List.take, hfun]
      cases h : stepChunk sc st c with
      | none => simp
      | some st' =>
        dsimp only
        rw [ih k (i + 1) st']
        by_cases hb : (runAux sc (fun _ => false) (cs.take k) (i + 1) st').errorCalled
        · simp [hb]
        · simp only [hb, Bool.false_eq_true, if_false, List.length_cons]
          have : min ((i + 1) + k + 1) ((i + 1) + cs.length) =
              min (i + (k + 1) + 1) (i + (cs.length + 1)) := by omega
          rw [this]

/-- Counterexample to claim C5 as stated: with the flag set before the
first check and three chunks remaining, the worker still pulls one chunk
from the iterator (`pulled = 1`) and then calls the stream-completion sink
(`completionCalled = true`), both contrary to the claim. -/
theorem C5_counterexample :
    runSegmenter matroskaM [[], [], []] (fun _ => true) = ⟨[], true, false, 1⟩ := by
  decide

/-! ### C1 — segmenter fragment delivery -/

/-- One `stepChunk` appends at most one fragment. -/
theorem stepChunk_delivered_le (sc : SchemaM) (st : SegState)
    (c : List Nat) (st' : SegState) (h : stepChunk sc st c = some st') :
    st'.delivered.length ≤ st.delivered.length + 1 := by
  cases heq : ebmlHeaderOffsets sc (st.buffer ++ c) with
  | none =>
    simp only [stepChunk, heq] at h
    exact absurd h (by simp)
  | some hdrs =>
    simp only [stepChunk, heq] at h
    rcases hdrs with _ | ⟨f0, _ | ⟨f1, rest⟩⟩
    · simp only [Option.some.injEq] at h
      rw [← h]
      simp
    · simp only [Option.some.injEq] at h
      rw [← h]
      simp
    · simp only [Option.some.injEq] at h
      rw [← h]
      simp

/-- The run delivers at most one fragment per pulled chunk. -/
theorem runAux_delivered_le (sc : SchemaM) (flag : Nat → Bool) :
    ∀ (cs : List (List Nat)) (i : Nat) (st : SegState),
      (runAux sc flag cs i st).delivered.length ≤
        st.delivered.length + cs.length := by
  intro cs
  induction cs with
  | nil => intro i st; simp [runAux]
  | cons c cs ih =>
    intro i st
    unfold runAux
    by_cases hf : flag i
    · simp [hf]
    · simp only [hf, Bool.false_eq_true, if_false]
      cases h : stepChunk sc st c with
      | none => simp
      | some st' =>
        have h1 := stepChunk_delivered_le sc st c st' h
        have h2 := ih (i + 1) st'
        simp only [List.length_cons]
        omega

/-- Claim C1 (amended): the segmenter checks the buffer once per chunk
arrival and delivers at most one fragment per chunk — there is no
repeat-while-two-headers loop — so over any chunked input the number of
delivered fragments never exceeds the number of chunks, and fragments
beyond the first complete one in a buffer wait for later chunk arrivals
(in particular, a stream's final fragment, never followed by another EBML
header, is not delivered). -/
theorem C1_segmenter_delivery (sc : SchemaM) (chunks : List (List Nat))
    (flag : Nat → Bool) :
    (runSegmenter sc chunks flag).delivered.length ≤ chunks.length := by
  have h := runAux_delivered_le sc flag chunks 0 ⟨[], []⟩
  simpa [runSegmenter] using h

/-- Counterexample to claim C1 as stated: a single chunk holding the
concatenation of two complete MKV fragments yields exactly one delivered
fragment (the first), not two — the run loop checks once per chunk, does
not continue while two headers remain, and never delivers the final
fragment. -/
theorem C1_counterexample :
    runSegmenter matroskaM [ebmlFrag ++ ebmlFrag] (fun _ => false) =
      ⟨[ebmlFrag], true, false, 1⟩ ∧
    (runSegmenter matroskaM [ebmlFrag ++ ebmlFrag] (fun _ => false)).delivered.length ≠ 2 := by
  decide

/-! ### C2 — unknown-size master scan -/

/-- The scan loop computes exactly what a `ScanChain` describes, given
enough fuel. -/
theorem scanLoopP_of_chain (parse : Nat → RRes (Nat × Nat × Nat))
    (valid : Nat → Bool) :
    ∀ pos stop n, ScanChain parse valid pos stop n →
      ∀ fuel, n < fuel → scanLoopP parse valid fuel pos = some (stop, n) := by
  intro pos stop n h
  induction h with
  | stopEof pos hp =>
    intro fuel hf
    cases fuel with
    | zero => omega
    | succ f => simp [scanLoopP, hp]
  | stopInvalid pos eid po next hp hv =>
    intro fuel hf
    cases fuel with
    | zero => omega
    | succ f => simp [scanLoopP, hp, hv]
  | step pos eid po next stop n hp hv hch ih =>
    intro fuel hf
    cases fuel with
    | zero => omega
    | succ f => simp [scanLoopP, hp, hv, ih f (by omega)]

/-- Claim C2 (amended): for a master element of type `mid` whose encoded
size is unknown, when the elements following `payload_offset` form a chain
of `n` children with *valid* IDs — valid meaning the master type declares
a non-empty children set and the ID is among those children or the
schema's globals — terminated by the first element with an invalid ID or
by end of source at offset `stop`, the computed size is `stop −
payload_offset` and the recorded length is `n`. -/
theorem C2_master_size (sc : SchemaM) (buf : List Nat)
    (mid po stop n fuel : Nat)
    (h : ScanChain (parseElemAt sc buf fuel) (validChild sc mid) po stop n)
    (hf : n < fuel) :
    masterSizeOf sc buf mid po fuel = some (stop - po, n) := by
  unfold masterSizeOf
  rw [scanLoopP_of_chain (parseElemAt sc buf fuel) (validChild sc mid)
       po stop n h fuel hf]
  rfl

/-- Witness for C2: two valid children (IDs `0x81`) followed by an invalid
ID (`0xA2`) at offset 4 give size `4 − 0` and length 2. -/
theorem C2_master_size_witness :
    masterSizeOf scW bufW 2 0 10 = some (4 - 0, 2) :=
  C2_master_size scW bufW 2 0 4 2 10
    (ScanChain.step 0 0x81 2 2 4 1 (by decide) (by decide)
      (ScanChain.step 2 0x81 4 4 4 0 (by decide) (by decide)
        (ScanChain.stopInvalid 4 0xA2 6 6 (by decide) (by decide))))
    (by decide)

/-- Counterexample to claim C2 as stated: for a master type with *no*
declared children, `_isValidChild` returns `False` even for IDs in the
schema's globals (`if not cls.children`), so a following global element
(ID `0xEC`) is not counted and the size stops at 0 — whereas the claim's
validity condition ("in the declared children or in the schema's
globals") would count it and yield size 2, length 1. -/
theorem C2_counterexample :
    masterSizeOf scC2 [0xEC, 0x80] 100 0 5 = some (0, 0) ∧
    masterSizeSpecOf scC2 [0xEC, 0x80] 100 0 5 = some (2, 1) ∧
    scC2.globals.contains 0xEC = true ∧
    (scC2.children 100).isEmpty = true := by
  decide

/-! ### C9 — `get_fragment_tags` -/

/-- Keys of a dict are computed entrywise. -/
theorem tagKeys_cons (p : List Nat × Option (List Nat)) (rest : TagDict) :
    tagKeys (p :: rest) = p.1 :: tagKeys rest := rfl

/-- One step of `dedupAcc`. -/
theorem dedupAcc_cons (seen : List (List Nat)) (x : List Nat)
    (xs : List (List Nat)) :
    dedupAcc seen (x :: xs) =
      if x ∈ seen then dedupAcc seen xs else x :: dedupAcc (seen ++ [x]) xs := rfl

/-- Keys after a dict insert: unchanged if the key is present, appended
otherwise. -/
theorem tagKeys_insert (d : TagDict) (k : List Nat) (v : Option (List Nat)) :
    tagKeys (insertTag d k v) =
      if k ∈ tagKeys d then tagKeys d else tagKeys d ++ [k] := by
  induction d with
  | nil => simp [insertTag, tagKeys]
  | cons p rest ih =>
    obtain ⟨k', v'⟩ := p
    by_cases h : k' = k
    · subst h
      simp [insertTag, tagKeys_cons]
    · rw [show insertTag ((k', v') :: rest) k v = (k', v') :: insertTag rest k v
            from by simp [insertTag, h]]
      rw [tagKeys_cons, tagKeys_cons, ih]
      by_cases h2 : k ∈ tagKeys rest
      · rw [if_pos h2, if_pos (by simp [h2])]
      · rw [if_neg h2,
            if_neg (by simp [h2, Ne.symm h] : ¬k ∈ (k', v').1 :: tagKeys rest)]
        simp

/-- The keys produced by the dict-building fold are the first-occurrence
de-duplication of the non-empty `TagName`s, relative to the keys already
present. -/
theorem buildTagDict_keys :
    ∀ (sts : List MkvEl) (d : TagDict),
      tagKeys (buildTagDict d sts) =
        tagKeys d ++ dedupAcc (tagKeys d) (sts.filterMap nameOf) := by
  intro sts
  induction sts with
  | nil => intro d; simp [buildTagDict, dedupAcc]
  | cons st sts ih =>
    intro d
    have hstep : buildTagDict d (st :: sts) =
        buildTagDict
          (match tagNameValue st with
           | (some (c :: cs), v) => insertTag d (c :: cs) v
           | _ => d) sts := by
      unfold buildTagDict
      simp only [List.foldl_cons]
    rw [hstep]
    cases hnv : tagNameValue st with
    | mk o1 o2 =>
      cases o1 with
      | none =>
        simp only [List.filterMap_cons, nameOf, hnv]
        rw [ih]
      | some l =>
        cases l with
        | nil =>
          simp only [List.filterMap_cons, nameOf, hnv]
          rw [ih]
        | cons c cs =>
          simp only [List.filterMap_cons, nameOf, hnv]
          rw [ih, tagKeys_insert, dedupAcc_cons]
          by_cases hmem : (c :: cs) ∈ tagKeys d
          · rw [if_pos hmem, if_pos hmem]
          · rw [if_neg hmem, if_neg hmem]
            simp [List.append_assoc]

/-- Claim C9 (amended): `get_fragment_tags` raises `KeyError` iff the
fragment DOM has no root `Segment` element or its first `Segment` has zero
children (an empty master element is falsy); otherwise it returns a
dictionary with one entry per *distinct* non-empty `TagName` among the
`SimpleTag`s (duplicate names collapse, later values overwriting
earlier ones). -/
theorem C9_fragment_tags (roots : List MkvEl) :
    (getFragmentTags roots = none ↔
      (segmentOf roots = none ∨
       ∃ seg, segmentOf roots = some seg ∧ (elChildren seg).length = 0)) ∧
    (∀ seg d, segmentOf roots = some seg → getFragmentTags roots = some d →
      tagKeys d = dedupAcc [] ((collectSimpleTags seg).filterMap nameOf)) := by
  constructor
  · cases h : segmentOf roots with
    | none => simp [getFragmentTags, h]
    | some seg =>
      by_cases hz : (elChildren seg).length = 0
      · simp only [getFragmentTags, h, hz, if_true]
        simp [List.length_eq_zero.mp hz]
      · simp [getFragmentTags, h, hz]
        exact fun hcon => hz (by simp [hcon])
  · intro seg d hseg hd
    simp only [getFragmentTags, hseg] at hd
    by_cases hz : (elChildren seg).length = 0
    · rw [if_pos hz] at hd
      exact absurd hd (by simp)
    · rw [if_neg hz] at hd
      simp only [Option.some.injEq] at hd
      rw [← hd, buildTagDict_keys]
      simp [tagKeys]

/-- Witness for C9 on a concrete fragment DOM with two identically named
`SimpleTag`s. -/
theorem C9_fragment_tags_witness :
    tagKeys [([65], some [2])] =
      dedupAcc [] ((collectSimpleTags seg9).filterMap nameOf) :=
  (C9_fragment_tags roots9).2 seg9 [([65], some [2])] rfl rfl

/-- Counterexample to claim C9 as stated: two `SimpleTag`s both qualify
(non-empty `TagName`), yet the returned dictionary has a single entry —
not one entry per qualifying `SimpleTag`. -/
theorem C9_counterexample :
    getFragmentTags roots9 = some [([65], some [2])] ∧
    ((collectSimpleTags seg9).filterMap nameOf).length = 2 := by
  constructor
  · rfl
  · rfl

/-! ### C8 — `Schema.addElement` duplicate handling -/

/-- Looking up a freshly inserted key. -/
theorem lookupA_insert_self :
    ∀ (A : AttrD) (k v : Nat), lookupA (insertA A k v) k = some v := by
  intro A k v
  induction A with
  | nil => simp [insertA, lookupA]
  | cons p rest ih =>
    obtain ⟨k', v'⟩ := p
    by_cases h : k' = k
    · subst h
      simp [insertA, lookupA]
    · simp [insertA, lookupA, h, ih]

/-- Inserting a binding the dict already has is the identity. -/
theorem insertA_of_lookup :
    ∀ (A : AttrD) (k v : Nat), lookupA A k = some v → insertA A k v = A := by
  intro A k v
  induction A with
  | nil => simp [lookupA]
  | cons p rest ih =>
    obtain ⟨k', v'⟩ := p
    intro h
    by_cases hk : k' = k
    · subst hk
      simp only [lookupA] at h
      simp at h
      simp [insertA, h]
    · simp only [lookupA, if_neg hk] at h
      simp [insertA, hk, ih h]

/-- Inserting under a different key does not change a lookup. -/
theorem lookupA_insert_other :
    ∀ (A : AttrD) (k1 v k : Nat), k1 ≠ k →
      lookupA (insertA A k1 v) k = lookupA A k := by
  intro A k1 v k hne
  induction A with
  | nil => simp [insertA, lookupA, hne]
  | cons p rest ih =>
    obtain ⟨k', v'⟩ := p
    by_cases h : k' = k1
    · subst h
      simp [insertA, lookupA, hne]
    · simp only [insertA, if_neg h, lookupA]
      by_cases h2 : k' = k
      · simp [h2]
      · simp [h2, ih]

/-- A `dict.update` whose keys avoid `k` does not change the lookup at
`k`. -/
theorem lookupA_dictUpdate_of_not_mem :
    ∀ (B A : AttrD) (k : Nat), k ∉ B.map (fun kv => kv.1) →
      lookupA (dictUpdateA A B) k = lookupA A k := by
  intro B
  induction B with
  | nil => intro A k _; simp [dictUpdateA]
  | cons kv B ih =>
    intro A k hk
    obtain ⟨k1, v1⟩ := kv
    have h1 : k1 ≠ k := by
      intro h
      exact hk (by simp [h])
    have h2 : k ∉ B.map (fun kv => kv.1) := by
      intro h
      exact hk (by simp [h])
    have hstep : dictUpdateA A ((k1, v1) :: B) = dictUpdateA (insertA A k1 v1) B := by
      simp [dictUpdateA]
    rw [hstep, ih (insertA A k1 v1) k h2, lookupA_insert_other A k1 v1 k h1]

/-- Python's `newatts = old.copy(); newatts.update(attribs); newatts ==
old` holds exactly when every new binding is already present in the old
dict (for duplicate-free attribute dicts, which is what parsed XML
attributes are). -/
theorem dictUpdateA_eq_iff :
    ∀ (B A : AttrD), (B.map (fun kv => kv.1)).Nodup →
      (dictUpdateA A B = A ↔ ∀ kv ∈ B, lookupA A kv.1 = some kv.2) := by
  intro B
  induction B with
  | nil => intro A _; simp [dictUpdateA]
  | cons kv B ih =>
    intro A hnd
    obtain ⟨k, v⟩ := kv
    rw [List.map_cons, List.nodup_cons] at hnd
    obtain ⟨hnotin, hndB⟩ := hnd
    have hstep : dictUpdateA A ((k, v) :: B) = dictUpdateA (insertA A k v) B := by
      simp [dictUpdateA]
    rw [hstep]
    constructor
    · intro heq
      have h1 : lookupA A k = some v := by
        conv_lhs => rw [← heq]
        rw [lookupA_dictUpdate_of_not_mem B _ k hnotin, lookupA_insert_self]
      have hins : insertA A k v = A := insertA_of_lookup A k v h1
      rw [hins] at heq
      have hrest := (ih A hndB).mp heq
      intro kv hkv
      rcases List.mem_cons.mp hkv with hkv | hkv
      · rw [hkv]
        exact h1
      · exact hrest kv hkv
    · intro hall
      have h1 : lookupA A k = some v := hall (k, v) (by simp)
      rw [insertA_of_lookup A k v h1]
      exact (ih A hndB).mpr (fun kv hkv => hall kv (by simp [hkv]))

/-- Claim C8: re-declaring an element whose ID or name is already in the
schema succeeds — returning the previously created element type — exactly
when the new declaration's attributes are consistent with the prior ones
(every attribute it repeats has the same value and it adds none) and its
kind is compatible with the prior kind (the prior generated class
subclasses the new base class); any attribute conflict or kind
incompatibility raises `TypeError`. -/
theorem C8_addElement (d : SDecl) (A : AttrD) (rc : List Nat)
    (eid' ename' : Option Nat) (baseK : BKind) (B : AttrD)
    (hres : ename' = some d.ename ∨ (ename' = none ∧ eid' = some d.eid))
    (hB : (B.map (fun kv => kv.1)).Nodup) :
    addElement ⟨[d], [(d.eid, A)], rc⟩ eid' ename' baseK B =
      (if kindSub d.kind baseK = true ∧ (∀ kv ∈ B, lookupA A kv.1 = some kv.2)
       then AddRes.ok ⟨[d], [(d.eid, A)], addChildId rc d.eid⟩ d
       else AddRes.errType) := by
  have hfindName : findByName ⟨[d], [(d.eid, A)], rc⟩ d.ename = some d := by
    simp [findByName]
  have hfindId : findById ⟨[d], [(d.eid, A)], rc⟩ d.eid = some d := by
    simp [findById]
  have hinfo : lookupInfo ⟨[d], [(d.eid, A)], rc⟩ d.eid = some A := by
    simp [lookupInfo]
  have hmain :
      addElement ⟨[d], [(d.eid, A)], rc⟩ eid' ename' baseK B =
        (if !kindSub d.kind baseK then AddRes.errType
         else if dictUpdateA A B = A then
           AddRes.ok ⟨[d], [(d.eid, A)], addChildId rc d.eid⟩ d
         else AddRes.errType) := by
    rcases hres with hres | ⟨hres1, hres2⟩
    · subst hres
      simp [addElement, hfindName, hinfo]
    · subst hres1
      subst hres2
      simp [addElement, hfindId, hinfo]
  rw [hmain]
  by_cases hk : kindSub d.kind baseK
  · have hk1 : (!kindSub d.kind baseK) = false := by simp [hk]
    simp only [hk1, Bool.false_eq_true, if_false]
    by_cases hc : ∀ kv ∈ B, lookupA A kv.1 = some kv.2
    · rw [if_pos ((dictUpdateA_eq_iff B A hB).mpr hc), if_pos ⟨hk, hc⟩]
    · rw [if_neg (fun he => hc ((dictUpdateA_eq_iff B A hB).mp he)),
          if_neg (fun hand => hc hand.2)]
  · have hk0 : kindSub d.kind baseK = false := by
      cases h : kindSub d.kind baseK
      · rfl
      · exact absurd h hk
    simp only [hk0, Bool.not_false, if_true]
    rw [if_neg (fun hand => absurd hand.1 (by decide))]

/-- Witness for C8: the prior declaration is an unsigned-integer element;
re-declaring it by ID under the compatible `IntegerElement` base with a
subset of its attributes succeeds and returns the prior class. -/
theorem C8_addElement_witness :
    addElement ⟨[⟨0x80, 5, BKind.uinteger⟩], [(0x80, [(1, 2), (3, 4)])], []⟩
        (some 0x80) none BKind.integer [(3, 4)] =
      AddRes.ok ⟨[⟨0x80, 5, BKind.uinteger⟩], [(0x80, [(1, 2), (3, 4)])], [0x80]⟩
        ⟨0x80, 5, BKind.uinteger⟩ := by
  have h := C8_addElement ⟨0x80, 5, BKind.uinteger⟩ [(1, 2), (3, 4)] []
    (some 0x80) none BKind.integer [(3, 4)]
    (Or.inr ⟨rfl, rfl⟩) (by decide)
  rw [h]
  rw [if_pos ⟨by decide, by decide⟩]
  rfl

/-! ### C3 — size VarInt round-trip -/

/-- Folding the big-endian accumulator from `a` shifts by the tail's
width. -/
theorem beVal_foldl (xs : List Nat) :
    ∀ a : Nat,
      xs.foldl (fun a b => a * 256 + b) a = a * 256 ^ xs.length + beVal xs := by
  induction xs with
  | nil => intro a; simp [beVal]
  | cons x xs ih =>
    intro a
    have hx : beVal (x :: xs) = (0 * 256 + x) * 256 ^ xs.length + beVal xs := by
      show List.foldl (fun a b => a * 256 + b) 0 (x :: xs) = _
      rw [List.foldl_cons]
      exact ih (0 * 256 + x)
    simp only [List.foldl_cons, List.length_cons]
    rw [ih (a * 256 + x), hx]
    ring

/-- `beVal` of a cons. -/
theorem beVal_cons (x : Nat) (xs : List Nat) :
    beVal (x :: xs) = x * 256 ^ xs.length + beVal xs := by
  show List.foldl (fun a b => a * 256 + b) 0 (x :: xs) = _
  rw [List.foldl_cons, beVal_foldl xs (0 * 256 + x)]
  ring

/-- Leading zero bytes do not change the decoded value. -/
theorem beVal_zeros (k : Nat) (xs : List Nat) :
    beVal (List.replicate k 0 ++ xs) = beVal xs := by
  induction k with
  | zero => simp
  | succ k ih =>
    rw [List.replicate_succ, List.cons_append, beVal_cons]
    simp [ih]

/-- `toBytesBE` always produces the requested width. -/
theorem toBytesBE_length (v : Nat) : ∀ n, (toBytesBE v n).length = n := by
  intro n
  induction n with
  | zero => rfl
  | succ n ih => simp [toBytesBE, ih]

/-- Decoding the bytes of `v` recovers `v` modulo the width. -/
theorem beVal_toBytesBE (v : Nat) : ∀ n, beVal (toBytesBE v n) = v % 256 ^ n := by
  intro n
  induction n with
  | zero => simp [toBytesBE, beVal, Nat.mod_one]
  | succ n ih =>
    rw [show toBytesBE v (n + 1) = (v / 256 ^ n % 256) :: toBytesBE v n from rfl]
    rw [beVal_cons, toBytesBE_length, ih, pow_succ, Nat.mod_mul]
    ring

/-- A value below `256 ^ n` encodes into a wider field with leading zero
bytes. -/
theorem toBytesBE_split (v n : Nat) (h : v < 256 ^ n) :
    ∀ m, toBytesBE v (n + m) = List.replicate m 0 ++ toBytesBE v n := by
  intro m
  induction m with
  | zero => simp
  | succ m ih =>
    have hz : v / 256 ^ (n + m) = 0 :=
      Nat.div_eq_of_lt
        (lt_of_lt_of_le h (Nat.pow_le_pow_right (by norm_num) (by omega)))
    rw [show n + (m + 1) = (n + m) + 1 from rfl]
    rw [show toBytesBE v ((n + m) + 1) =
          (v / 256 ^ (n + m) % 256) :: toBytesBE v (n + m) from rfl]
    rw [hz, ih]
    simp [List.replicate_succ]

/-- The leading byte of an exact-width encoding is the top quotient. -/
theorem toBytesBE_head (v n : Nat) (_h1 : 256 ^ n ≤ v) (h2 : v < 256 ^ (n + 1)) :
    toBytesBE v (n + 1) = (v / 256 ^ n) :: toBytesBE v n := by
  rw [show toBytesBE v (n + 1) = (v / 256 ^ n % 256) :: toBytesBE v n from rfl]
  congr 1
  apply Nat.mod_eq_of_lt
  have hpos : 0 < (256 : Nat) ^ n := pow_pos (by norm_num) n
  rw [Nat.div_lt_iff_lt_mul hpos]
  rw [pow_succ] at h2
  omega

/-- Stripping leading zeros of a zero-padded byte string. -/
theorem lstrip_replicate (x : Nat) (t : List Nat) (hx : x ≠ 0) :
    ∀ k, lstripZeros (List.replicate k 0 ++ x :: t) = x :: t := by
  intro k
  induction k with
  | zero => simp [lstripZeros, List.dropWhile_cons, hx]
  | succ k ih =>
    rw [List.replicate_succ, List.cons_append]
    simpa [lstripZeros, List.dropWhile_cons] using ih

/-- `encodeUInt` at the exact minimal width is the big-endian encoding. -/
theorem encodeUInt_exact (w n : Nat) (hn : n ≤ 7)
    (hlo : 256 ^ n ≤ w) (hhi : w < 256 ^ (n + 1)) :
    encodeUInt w (some (n + 1)) = some (toBytesBE w (n + 1)) := by
  have hw64 : w < 2 ^ 64 := by
    have h8 : (256 : Nat) ^ (n + 1) ≤ 256 ^ 8 :=
      Nat.pow_le_pow_right (by norm_num) (by omega)
    have h88 : (256 : Nat) ^ 8 = 2 ^ 64 := by norm_num
    omega
  have hsplit : toBytesBE w 8 = List.replicate (8 - (n + 1)) 0 ++ toBytesBE w (n + 1) := by
    have h := toBytesBE_split w (n + 1) hhi (8 - (n + 1))
    rw [show (n + 1) + (8 - (n + 1)) = 8 from by omega] at h
    exact h
  have hhead : toBytesBE w (n + 1) = (w / 256 ^ n) :: toBytesBE w n :=
    toBytesBE_head w n hlo hhi
  have hne : w / 256 ^ n ≠ 0 := by
    have hpos : 0 < (256 : Nat) ^ n := pow_pos (by norm_num) n
    have h1 : 1 ≤ w / 256 ^ n := (Nat.one_le_div_iff hpos).mpr hlo
    intro h0
    rw [h0] at h1
    exact absurd h1 (by norm_num)
  have hstrip : lstripZeros (toBytesBE w 8) = (w / 256 ^ n) :: toBytesBE w n := by
    rw [hsplit, hhead]
    exact lstrip_replicate _ _ hne _
  have hlen : ((w / 256 ^ n) :: toBytesBE w n).length = n + 1 := by
    simp [toBytesBE_length]
  simp only [encodeUInt, hw64, if_true, hstrip]
  simp only [List.isEmpty_cons, Bool.false_eq_true, if_false, hlen]
  rw [if_neg (by omega)]
  unfold leftPad
  rw [hlen, show (n + 1) - (n + 1) = 0 from by omega]
  simp [hhead]

set_option maxRecDepth 20000 in
/-- Mask arithmetic for the seven VarInt length classes, on byte values. -/
theorem maskFacts : ∀ b : Fin 256,
    (128 ≤ b.val → b.val &&& 127 = b.val - 128) ∧
    (64 ≤ b.val → b.val < 128 → b.val &&& 63 = b.val - 64) ∧
    (32 ≤ b.val → b.val < 64 → b.val &&& 31 = b.val - 32) ∧
    (16 ≤ b.val → b.val < 32 → b.val &&& 15 = b.val - 16) ∧
    (8 ≤ b.val → b.val < 16 → b.val &&& 7 = b.val - 8) ∧
    (4 ≤ b.val → b.val < 8 → b.val &&& 3 = b.val - 4) ∧
    (2 ≤ b.val → b.val < 4 → b.val &&& 1 = b.val - 2) := by
  decide

/-- `decodeIntLength` on a byte whose marker bit sits at position `7 - n`
yields length `n + 1` and the byte with the marker removed. -/
theorem decodeIntLength_spec (n b : Nat) (hn : n ≤ 7)
    (hlo : 2 ^ (7 - n) ≤ b) (hhi : b < 2 ^ (8 - n)) :
    decodeIntLength b = (n + 1, b - 2 ^ (7 - n)) := by
  have hb : b < 256 := by
    have h := Nat.pow_le_pow_right (by norm_num : 1 ≤ 2) (by omega : 8 - n ≤ 8)
    omega
  have hm := maskFacts ⟨b, hb⟩
  simp only [] at hm
  interval_cases n
  · norm_num at hlo hhi ⊢
    unfold decodeIntLength
    rw [if_pos (by omega : b ≥ 128), hm.1 (by omega)]
  · norm_num at hlo hhi ⊢
    unfold decodeIntLength
    rw [if_neg (by omega : ¬b ≥ 128), if_pos (by omega : b ≥ 64),
        hm.2.1 (by omega) (by omega)]
  · norm_num at hlo hhi ⊢
    unfold decodeIntLength
    rw [if_neg (by omega : ¬b ≥ 128), if_neg (by omega : ¬b ≥ 64),
        if_pos (by omega : b ≥ 32), hm.2.2.1 (by omega) (by omega)]
  · norm_num at hlo hhi ⊢
    unfold decodeIntLength
    rw [if_neg (by omega : ¬b ≥ 128), if_neg (by omega : ¬b ≥ 64),
        if_neg (by omega : ¬b ≥ 32), if_pos (by omega : b ≥ 16),
        hm.2.2.2.1 (by omega) (by omega)]
  · norm_num at hlo hhi ⊢
    unfold decodeIntLength
    rw [if_neg (by omega : ¬b ≥ 128), if_neg (by omega : ¬b ≥ 64),
        if_neg (by omega : ¬b ≥ 32), if_neg (by omega : ¬b ≥ 16),
        if_pos (by omega : b ≥ 8), hm.2.2.2.2.1 (by omega) (by omega)]
  · norm_num at hlo hhi ⊢
    unfold decodeIntLength
    rw [if_neg (by omega : ¬b ≥ 128), if_neg (by omega : ¬b ≥ 64),
        if_neg (by omega : ¬b ≥ 32), if_neg (by omega : ¬b ≥ 16),
        if_neg (by omega : ¬b ≥ 8), if_pos (by omega : b ≥ 4),
        hm.2.2.2.2.2.1 (by omega) (by omega)]
  · norm_num at hlo hhi ⊢
    unfold decodeIntLength
    rw [if_neg (by omega : ¬b ≥ 128), if_neg (by omega : ¬b ≥ 64),
        if_neg (by omega : ¬b ≥ 32), if_neg (by omega : ¬b ≥ 16),
        if_neg (by omega : ¬b ≥ 8), if_neg (by omega : ¬b ≥ 4),
        if_pos (by omega : b ≥ 2), hm.2.2.2.2.2.2 (by omega) (by omega)]
  · norm_num at hlo hhi ⊢
    have hb1 : b = 1 := by omega
    subst hb1
    decide

/-- Decoding the exact-width encoding of a size value recovers it. -/
theorem readSizeAt_decode (n u : Nat) (hn : n ≤ 7)
    (hu : u < 2 ^ (7 * (n + 1)) - 1) :
    readSizeAt (toBytesBE (2 ^ (7 * (n + 1)) + u) (n + 1)) 0 =
      .ok (some u, n + 1) := by
  set w := 2 ^ (7 * (n + 1)) + u with hw
  have hpw : (2 : Nat) ^ (7 * (n + 1)) = 2 ^ (7 - n) * 256 ^ n := by
    rw [show (256 : Nat) = 2 ^ 8 from by norm_num, ← pow_mul, ← pow_add]
    congr 1
    omega
  have hdpos : 0 < (256 : Nat) ^ n := pow_pos (by norm_num) n
  have hApos : 0 < (2 : Nat) ^ (7 - n) := pow_pos (by norm_num) (7 - n)
  have hA128 : (2 : Nat) ^ (7 - n) ≤ 128 := by
    have h := Nat.pow_le_pow_right (by norm_num : 1 ≤ 2) (by omega : 7 - n ≤ 7)
    norm_num at h
    omega
  have hupow : u < 2 ^ (7 - n) * 256 ^ n := by
    rw [← hpw]
    omega
  have hdiv : w / 256 ^ n = 2 ^ (7 - n) + u / 256 ^ n := by
    rw [hw, hpw, mul_comm ((2 : Nat) ^ (7 - n)) ((256 : Nat) ^ n),
        Nat.mul_add_div hdpos]
  have hdivlt : u / 256 ^ n < 2 ^ (7 - n) := by
    rw [Nat.div_lt_iff_lt_mul hdpos]
    exact hupow
  have hmod : w % 256 ^ n = u % 256 ^ n := by
    rw [hw, hpw, mul_comm ((2 : Nat) ^ (7 - n)) ((256 : Nat) ^ n),
        Nat.mul_add_mod]
  have hwlo : 256 ^ n ≤ w := by
    have h1 : (256 : Nat) ^ n ≤ 2 ^ (7 - n) * 256 ^ n := by
      calc (256 : Nat) ^ n = 1 * 256 ^ n := (one_mul _).symm
      _ ≤ 2 ^ (7 - n) * 256 ^ n := Nat.mul_le_mul_right _ hApos
    rw [hw, hpw]
    omega
  have hwhi : w < 256 ^ (n + 1) := by
    have h3 : (2 : Nat) ^ (7 - n) * 256 ^ n + 2 ^ (7 - n) * 256 ^ n ≤ 256 ^ (n + 1) := by
      have h4 : (2 : Nat) ^ (7 - n) + 2 ^ (7 - n) ≤ 256 := by omega
      calc (2 : Nat) ^ (7 - n) * 256 ^ n + 2 ^ (7 - n) * 256 ^ n
          = (2 ^ (7 - n) + 2 ^ (7 - n)) * 256 ^ n := by ring
      _ ≤ 256 * 256 ^ n := Nat.mul_le_mul_right _ h4
      _ = 256 ^ (n + 1) := by rw [pow_succ]; ring
    rw [hw, hpw]
    omega
  have hhead : toBytesBE w (n + 1) = (w / 256 ^ n) :: toBytesBE w n :=
    toBytesBE_head w n hwlo hwhi
  have hdec : decodeIntLength (w / 256 ^ n) = (n + 1, u / 256 ^ n) := by
    have hsp := decodeIntLength_spec n (w / 256 ^ n) hn
      (by rw [hdiv]; exact Nat.le_add_right _ _)
      (by
        rw [hdiv, show 8 - n = (7 - n) + 1 from by omega, pow_succ, Nat.mul_two]
        exact Nat.add_lt_add_left hdivlt _)
    rw [hsp, hdiv]
    congr 1
    exact Nat.add_sub_cancel_left _ _
  have hbytes : bytesAt ((w / 256 ^ n) :: toBytesBE w n) (0 + 1) ((n + 1) - 1) =
      toBytesBE w n := by
    simp only [bytesAt, List.drop_succ_cons, List.drop_zero,
      show (n + 1) - 1 = n from by omega]
    exact List.take_of_length_le (le_of_eq (toBytesBE_length w n))
  have hval : beVal (leftPad 8 ((u / 256 ^ n) :: toBytesBE w n)) = u := by
    unfold leftPad
    rw [beVal_zeros, beVal_cons, toBytesBE_length, beVal_toBytesBE, hmod,
        mul_comm]
    exact Nat.div_add_mod u (256 ^ n)
  rw [hhead]
  unfold readSizeAt
  rw [show bytesAt ((w / 256 ^ n) :: toBytesBE w n) 0 1 = [w / 256 ^ n] from by
        simp [bytesAt]]
  simp only [hdec, hbytes]
  cases n with
  | zero =>
    simp only [Nat.zero_add]
    rw [if_neg (by omega : ¬(1 : Nat) > 1)]
    rw [show u / 256 ^ 0 = u from by simp]
    rw [if_neg (by norm_num at hu ⊢; omega : ¬u = 2 ^ (7 * 1) - 1)]
  | succ m =>
    rw [if_pos (by omega : m + 1 + 1 > 1), hval]
    rw [if_neg (by omega : ¬u = 2 ^ (7 * (m + 1 + 1)) - 1)]

/-- `getLength` stays in `[1, 8]` and strictly bounds its argument below
the all-ones value of the chosen width. -/
theorem getLength_facts (u : Nat) (h : u ≤ 2 ^ 56 - 2) :
    1 ≤ getLength u ∧ getLength u ≤ 8 ∧ u < 2 ^ (7 * getLength u) - 1 := by
  unfold getLength
  split_ifs <;> norm_num <;> omega

/-- The marker table holds `2 ^ (7L)` at every valid length. -/
theorem lengthMarkers_get (L : Nat) (h1 : 1 ≤ L) (h8 : L ≤ 8) :
    lengthMarkers.get? L = some (2 ^ (7 * L)) := by
  interval_cases L <;> decide

/-- `u ||| 2 ^ k = 2 ^ k + u` when `u` fits below the marker bit. -/
theorem lor_two_pow_of_lt (u k : Nat) (h : u < 2 ^ k) :
    u ||| 2 ^ k = 2 ^ k + u := by
  apply Nat.eq_of_testBit_eq
  intro i
  rw [Nat.testBit_or]
  have hmul := Nat.testBit_mul_pow_two_add 1 h i
  rw [mul_one] at hmul
  rcases lt_trichotomy i k with hik | hik | hik
  · rw [hmul, if_pos hik, Nat.testBit_two_pow_of_ne (by omega), Bool.or_false]
  · subst hik
    rw [hmul, if_neg (lt_irrefl i), Nat.sub_self, Nat.testBit_two_pow_self,
        Bool.or_true]
    decide
  · have h2 : Nat.testBit u i = false :=
      Nat.testBit_lt_two_pow
        (lt_of_lt_of_le h (Nat.pow_le_pow_right (by norm_num) (by omega)))
    have h3 : Nat.testBit 1 (i - k) = false := by
      apply Nat.testBit_lt_two_pow
      have h4 : (2 : Nat) ^ 1 ≤ 2 ^ (i - k) :=
        Nat.pow_le_pow_right (by norm_num) (by omega)
      omega
    rw [hmul, if_neg (by omega), h3,
        Nat.testBit_two_pow_of_ne (by omega), h2]
    decide

/-- Claim C3: for every `u ∈ [0, 2^56 − 2]`, encoding `u` as an EBML size
with no explicit length and decoding the result with the size reader
returns exactly `u` (never the unknown-size `None`), and the encoded
length is the minimum length given by the thresholds 126, 16382, 2097150,
268435454, 34359738366, 4398046511102, 562949953421310 (which is
`getLength`). -/
theorem C3_size_roundtrip (u : Nat) (h : u ≤ 2 ^ 56 - 2) :
    ∃ bs, encodeSize (some u) none = some bs ∧
      bs.length = getLength u ∧
      readSizeAt bs 0 = .ok (some u, getLength u) := by
  obtain ⟨hL1, hL8, hu⟩ := getLength_facts u h
  obtain ⟨n, hLn⟩ : ∃ n, getLength u = n + 1 := ⟨getLength u - 1, by omega⟩
  have hn7 : n ≤ 7 := by omega
  rw [hLn] at hu ⊢
  refine ⟨toBytesBE (2 ^ (7 * (n + 1)) + u) (n + 1), ?_, ?_, ?_⟩
  · have hpw : (2 : Nat) ^ (7 * (n + 1)) = 2 ^ (7 - n) * 256 ^ n := by
      rw [show (256 : Nat) = 2 ^ 8 from by norm_num, ← pow_mul, ← pow_add]
      congr 1
      omega
    have hApos : 0 < (2 : Nat) ^ (7 - n) := pow_pos (by norm_num) (7 - n)
    have hA128 : (2 : Nat) ^ (7 - n) ≤ 128 := by
      have hh := Nat.pow_le_pow_right (by norm_num : 1 ≤ 2) (by omega : 7 - n ≤ 7)
      norm_num at hh
      omega
    have hwlo : 256 ^ n ≤ 2 ^ (7 * (n + 1)) + u := by
      have h1 : (256 : Nat) ^ n ≤ 2 ^ (7 - n) * 256 ^ n := by
        calc (256 : Nat) ^ n = 1 * 256 ^ n := (one_mul _).symm
        _ ≤ 2 ^ (7 - n) * 256 ^ n := Nat.mul_le_mul_right _ hApos
      rw [hpw]
      omega
    have hwhi : 2 ^ (7 * (n + 1)) + u < 256 ^ (n + 1) := by
      have hupow : u < 2 ^ (7 - n) * 256 ^ n := by
        rw [← hpw]
        omega
      have h3 : (2 : Nat) ^ (7 - n) * 256 ^ n + 2 ^ (7 - n) * 256 ^ n ≤
          256 ^ (n + 1) := by
        have h4 : (2 : Nat) ^ (7 - n) + 2 ^ (7 - n) ≤ 256 := by omega
        calc (2 : Nat) ^ (7 - n) * 256 ^ n + 2 ^ (7 - n) * 256 ^ n
            = (2 ^ (7 - n) + 2 ^ (7 - n)) * 256 ^ n := by ring
        _ ≤ 256 * 256 ^ n := Nat.mul_le_mul_right _ h4
        _ = 256 ^ (n + 1) := by rw [pow_succ]; ring
      rw [hpw]
      omega
    have henc := encodeUInt_exact (2 ^ (7 * (n + 1)) + u) n hn7 hwlo hwhi
    simp only [encodeSize, Option.getD_none, hLn]
    rw [lengthMarkers_get (n + 1) (by omega) (by omega)]
    show encodeUInt (u ||| 2 ^ (7 * (n + 1))) (some (n + 1)) = _
    rw [lor_two_pow_of_lt u (7 * (n + 1)) (by omega)]
    exact henc
  · exact toBytesBE_length _ _
  · exact readSizeAt_decode n u hn7 hu

/-- Witness for C3 at `u = 300` (encoded length 2). -/
theorem C3_size_roundtrip_witness :
    (300 : Nat) ≤ 2 ^ 56 - 2 ∧
    (∃ bs, encodeSize (some 300) none = some bs ∧
      bs.length = getLength 300 ∧
      readSizeAt bs 0 = .ok (some 300, getLength 300)) :=
  ⟨by decide, C3_size_roundtrip 300 (by decide)⟩

end KvsVerify
